import Mathlib

/-!
Shallow embedding of the spectral-transform components of `Gamma/DFT.h`
(namespace `gam`): `SlidingWindow`, `DFTBase`, the read side of `DFT`, and
`SlidingDFT`.  Pure C++ member functions become Lean functions on explicit
state records.  `uint32_t` values are modelled as `Nat`, with `% 2^32`
inserted exactly where the C++ arithmetic can wrap.  External collaborators
that live outside the embedded source (`mem.h`, `scl.h`, `Types.h`,
`Containers.h`) are modelled from the specification of their contracts.
-/

namespace Gam

/-- Complex number over `T`.  Modelled from the spec: the complex-arithmetic
collaborator (`Types.h`, not part of the embedded source) provides
construct-from-phase, multiply and add; a complex value models an element of
the complex plane, so adding a real sample affects the real component only. -/
structure Complex (T : Type) where
  r : T
  i : T
deriving DecidableEq, Repr

/-- Complex multiplication: (a+bi)(c+di) = (ac-bd) + (bc+ad)i. -/
def Complex.mul {T : Type} [Mul T] [Add T] [Sub T] (a b : Complex T) : Complex T :=
  ⟨a.r * b.r - a.i * b.i, a.i * b.r + a.r * b.i⟩

instance {T : Type} [Mul T] [Add T] [Sub T] : Mul (Complex T) := ⟨Complex.mul⟩

/-- Add a real sample to a complex value (affects the real component only). -/
def Complex.addR {T : Type} [Add T] (a : Complex T) (v : T) : Complex T :=
  ⟨a.r + v, a.i⟩

/-- Iterated complex multiplication, used to express the running phasor of the
sliding DFT in closed form. -/
def Complex.cpow {T : Type} [Mul T] [Add T] [Sub T] [One T] [Zero T]
    (z : Complex T) : ℕ → Complex T
  | 0 => ⟨1, 0⟩
  | n + 1 => (Complex.cpow z n) * z

/-- Unit phasor with the given phase: `fromPhase p = cos p + i sin p`. -/
noncomputable def Complex.fromPhase (p : ℝ) : Complex ℝ :=
  ⟨Real.cos p, Real.sin p⟩

/-- Modelled from the spec: `scl::clip(value, hi, lo)` (`scl.h`, not part of
the embedded source) silently clamps `value` into the interval `[lo, hi]`. -/
def scl.clip (v hi lo : ℕ) : ℕ := min (max v lo) hi

/-- Modelled from the spec: `mem::rotateLeft(order, buf, len)` (`mem.h`, not
part of the embedded source) rotates the buffer left by `order` positions. -/
def mem.rotateLeft {T : Type} (order : ℕ) (buf : List T) : List T :=
  buf.drop order ++ buf.take order

/-- Modelled from the spec: `mem::copyAllFromRing(src, size, tap, dst)`
(`mem.h`, not part of the embedded source) copies the ring buffer into `dst`
in logical (oldest-first) order, starting at the ring tap. -/
def mem.copyAllFromRing {T : Type} (buf : List T) (tap : ℕ) : List T :=
  buf.drop tap ++ buf.take tap

/-- Modelled from the spec: `mem::resize(buf, sizeNow, sizeNew)` (`mem.h`, not
part of the embedded source) reallocates unless the requested size equals the
current size, in which case it is a no-op returning false.  A reallocation
leaves the new buffer contents indeterminate, which the model makes explicit
through the `fresh` parameter. -/
def mem.resize {T : Type} (buf : List T) (sizeNow sizeNew : ℕ) (fresh : List T) :
    List T × Bool :=
  if sizeNew = sizeNow then (buf, false) else (fresh, true)

/-- Last `n` elements of a list, used to express "the `n` most recent
samples" of a fed stream. -/
def lastN {T : Type} (n : ℕ) (l : List T) : List T := l.drop (l.length - n)

/-- State of `gam::SlidingWindow<T>`: sample buffer, window and hop sizes,
write tap and hop counter. -/
structure SlidingWindow (T : Type) where
  mBuf : List T
  mSizeWin : ℕ
  mSizeHop : ℕ
  mTapW : ℕ
  mHopCnt : ℕ
deriving DecidableEq, Repr

/-- Embeds `SlidingWindow::sizeWin(size)`: reallocate via `mem::resize` and
record the new window size only when a reallocation happened. -/
def SlidingWindow.sizeWinSet {T : Type} (size : ℕ) (fresh : List T)
    (s : SlidingWindow T) : SlidingWindow T :=
  let r := mem.resize s.mBuf s.mSizeWin size fresh
  if r.2 then { s with mBuf := r.1, mSizeWin := size } else { s with mBuf := r.1 }

/-- Embeds `SlidingWindow::sizeHop(size)`: `mSizeHop = scl::clip(size, sizeWin(), 1)`. -/
def SlidingWindow.sizeHopSet {T : Type} (size : ℕ) (s : SlidingWindow T) :
    SlidingWindow T :=
  { s with mSizeHop := scl.clip size s.mSizeWin 1 }

/-- Embeds `SlidingWindow::resize(winSize, hopSize)`: set sizes, then
`mTapW = 0`.  The hop counter is not touched. -/
def SlidingWindow.resize {T : Type} (winSize hopSize : ℕ) (fresh : List T)
    (s : SlidingWindow T) : SlidingWindow T :=
  { (s.sizeWinSet winSize fresh).sizeHopSet hopSize with mTapW := 0 }

/-- Embeds the `SlidingWindow(winSize, hopSize)` constructor: members start at
zero, `resize` runs, then `mem::deepZero(mBuf, sizeWin())` zeroes the buffer. -/
def SlidingWindow.new {T : Type} [Zero T] (winSize hopSize : ℕ) : SlidingWindow T :=
  let s := SlidingWindow.resize winSize hopSize (List.replicate winSize 0)
    ⟨[], 0, 0, 0, 0⟩
  { s with mBuf := List.replicate s.mSizeWin 0 }

/-- Embeds `SlidingWindow::window()`: read-only view of the buffer. -/
def SlidingWindow.window {T : Type} (s : SlidingWindow T) : List T := s.mBuf

/-- Embeds `SlidingWindow::operator()(T input)` (feed): write at the tap,
advance; on reaching the hop size, rotate the buffer left by the hop size,
reset the tap and report a ready window. -/
def SlidingWindow.feed {T : Type} (input : T) (s : SlidingWindow T) :
    SlidingWindow T × Bool :=
  let buf := s.mBuf.set s.mTapW input
  if s.mTapW + 1 ≥ s.mSizeHop then
    ({ s with mBuf := mem.rotateLeft s.mSizeHop buf, mTapW := 0 }, true)
  else
    ({ s with mBuf := buf, mTapW := s.mTapW + 1 }, false)

/-- Embeds `SlidingWindow::operator()(T* dst, T input)` (feedCopy): write at
the ring tap, advance modularly; on the hop boundary, copy the logically
ordered window out and reset the hop counter. -/
def SlidingWindow.feedCopy {T : Type} (input : T) (s : SlidingWindow T) :
    SlidingWindow T × Bool × Option (List T) :=
  let buf := s.mBuf.set s.mTapW input
  let tapW := if s.mTapW + 1 = s.mSizeWin then 0 else s.mTapW + 1
  if s.mHopCnt + 1 = s.mSizeHop then
    ({ s with mBuf := buf, mTapW := tapW, mHopCnt := 0 }, true,
      some (mem.copyAllFromRing buf tapW))
  else
    ({ s with mBuf := buf, mTapW := tapW, mHopCnt := s.mHopCnt + 1 }, false, none)

/-- Feeds a list of samples through `SlidingWindow.feed`, collecting the
ready flags in order. -/
def SlidingWindow.feedMany {T : Type} (s : SlidingWindow T) :
    List T → SlidingWindow T × List Bool
  | [] => (s, [])
  | x :: xs =>
    let r := SlidingWindow.feed x s
    let rest := SlidingWindow.feedMany r.1 xs
    (rest.1, r.2 :: rest.2)

/-- Feeds a list of samples through `SlidingWindow.feedCopy`, collecting the
ready flag and the copied window (when any) of each call, in order. -/
def SlidingWindow.runFeedCopy {T : Type} (s : SlidingWindow T) :
    List T → SlidingWindow T × List (Bool × Option (List T))
  | [] => (s, [])
  | x :: xs =>
    let r := SlidingWindow.feedCopy x s
    let rest := SlidingWindow.runFeedCopy r.1 xs
    (rest.1, r.2 :: rest.2)

/-- State of `gam::DFTBase<T>` as far as the bin buffer is concerned: the
transform size and the bin buffer (the `sizeDFT()+2` real slots of `mBuf`
viewed as `numBins()` complex slots through the union). -/
structure DFTBase (T : Type) where
  mSizeDFT : ℕ
  mBins : List (Complex T)
deriving DecidableEq, Repr

/-- Embeds `DFTBase::numBins()`: `(sizeDFT() + 2) >> 1` in `uint32_t`
arithmetic, so the sum wraps modulo `2^32` before the shift. -/
def DFTBase.numBins {T : Type} (s : DFTBase T) : ℕ :=
  ((s.mSizeDFT + 2) % 2 ^ 32) >>> 1

/-- Embeds `DFTBase::normForward()`: `T(2) / T(sizeDFT())`. -/
noncomputable def DFTBase.normForward (s : DFTBase ℝ) : ℝ :=
  (2 : ℝ) / (s.mSizeDFT : ℝ)

/-- Embeds `DFTBase::zeroEnds()`: assign `(0,0)` to bin 0 and to bin
`numBins()-1`. -/
def DFTBase.zeroEnds {T : Type} [Zero T] (s : DFTBase T) : DFTBase T :=
  { s with mBins := (s.mBins.set 0 ⟨0, 0⟩).set (s.numBins - 1) ⟨0, 0⟩ }

/-- Read-side state of `gam::DFT`: the hop size, the inverse read tap and the
inverse sample buffer.  The spectral state consumed by the virtual
`inverse()` call is abstracted by the oracle parameter of `readStep`. -/
structure DFT (T : Type) where
  mSizeHop : ℕ
  mTapR : ℕ
  mBufInv : List T
deriving DecidableEq, Repr

/-- Embeds `DFT::inverseOnNext()`: `mTapR == (sizeHop() - 1)`, where the
subtraction is `uint32_t` subtraction and therefore wraps at `sizeHop() = 0`. -/
def DFT.inverseOnNext {T : Type} (s : DFT T) : Bool :=
  s.mTapR == (s.mSizeHop + (2 ^ 32 - 1)) % 2 ^ 32

/-- Embeds `DFT::operator()()`, the inverse-sample read step: advance the read
tap; when it reaches the hop size, perform the (virtual) inverse transform —
abstracted by the oracle `inv`, which produces the refilled inverse buffer —
and reset the tap; return the sample at the new tap and whether the inverse
transform ran. -/
def DFT.readStep {T : Type} [Zero T] (inv : DFT T → List T) (s : DFT T) :
    DFT T × T × Bool :=
  if s.mTapR + 1 ≥ s.mSizeHop then
    let s' : DFT T := { s with mBufInv := inv s, mTapR := 0 }
    (s', s'.mBufInv.getD 0 0, true)
  else
    ({ s with mTapR := s.mTapR + 1 }, s.mBufInv.getD (s.mTapR + 1) 0, false)

/-- Modelled from the spec: `DelayN<T>` (`Containers.h`, not part of the
embedded source) is a fixed-length delay line whose feed call returns the
value from `N` samples ago and then stores the new sample.  The state is the
queue of pending samples, oldest first. -/
def DelayN.feedRead {T : Type} (input : T) (q : List T) : T × List T :=
  match q with
  | [] => (input, [])
  | d :: rest => (d, rest ++ [input])

/-- State of `gam::SlidingDFT<T>` at `T = float`, with real numbers standing
for the floating-point samples.  The `DFTBase` part is inlined: `mSizeDFT`
and the bin buffer (modelled as a total map from bin index to value, written
only at the indices the forward loop touches). -/
structure SlidingDFT where
  mSizeDFT : ℕ
  mBinLo : ℕ
  mBinHi : ℕ
  mBins : ℕ → Complex ℝ
  mDelay : List ℝ
  mF1 : Complex ℝ
  mFL : Complex ℝ
  mNorm : ℝ

/-- Per-bin loop of `SlidingDFT::forward`: starting at bin `k` with running
phasor `c`, perform `cnt` iterations of `b = b*c + dif; c *= f1`. -/
def sdftLoop (f1 : Complex ℝ) (dif : ℝ) :
    ℕ → ℕ → Complex ℝ → (ℕ → Complex ℝ) → (ℕ → Complex ℝ)
  | _, 0, _, bins => bins
  | k, cnt + 1, c, bins =>
    sdftLoop f1 dif (k + 1) cnt (c * f1)
      (Function.update bins k (((bins k) * c).addR dif))

/-- Embeds `SlidingDFT::forward(input)`: read the delay line (`N` samples
ago) while storing the input, form `dif = (input - delayed) * mNorm`, then run
the resonator loop over bins `mBinLo ≤ k < mBinHi` with the running phasor
seeded at `mFL`. -/
def SlidingDFT.forward (input : ℝ) (s : SlidingDFT) : SlidingDFT :=
  let fr := DelayN.feedRead input s.mDelay
  let dif := (input - fr.1) * s.mNorm
  { s with
    mBins := sdftLoop s.mF1 dif s.mBinLo (s.mBinHi - s.mBinLo) s.mFL s.mBins,
    mDelay := fr.2 }

/-- Embeds `SlidingDFT::interval(binLo, binHi)`: store the endpoints as given,
then recompute `mF1 = fromPhase(2*pi/sizeDFT)`, the low-bin phasor
`mFL = fromPhase((2*pi/sizeDFT)*binLo)` and `mNorm = 2/sizeDFT`. -/
noncomputable def SlidingDFT.interval (binLo binHi : ℕ) (s : SlidingDFT) :
    SlidingDFT :=
  let theta : ℝ := 2 * Real.pi / (s.mSizeDFT : ℝ)
  { s with
    mBinLo := binLo
    mBinHi := binHi
    mF1 := Complex.fromPhase theta
    mFL := Complex.fromPhase (theta * (binLo : ℝ))
    mNorm := (2 : ℝ) / (s.mSizeDFT : ℝ) }

/-- Embeds `SlidingDFT::resize(sizeDFT, binLo, binHi)`: reallocate and zero
the bin buffer, resize the delay line to `sizeDFT` and assign zero to it, set
the new transform size, then recompute the interval state. -/
noncomputable def SlidingDFT.resize (sizeDFT binLo binHi : ℕ) (s : SlidingDFT) :
    SlidingDFT :=
  SlidingDFT.interval binLo binHi
    { s with
      mBins := fun _ => ⟨0, 0⟩
      mDelay := List.replicate sizeDFT 0
      mSizeDFT := sizeDFT }

/-- Invariant tying a `SlidingWindow` state in feedCopy (ring) mode to the
stream `ys` of samples fed so far: sizes are `W` and `H`, the taps count the
stream modulo the window and hop sizes, and reading the ring in logical order
yields the `W` most recent samples of the zero-initialized stream. -/
def SWInv (T : Type) [Zero T] (W H : ℕ) (ys : List T) (s : SlidingWindow T) : Prop :=
  s.mSizeWin = W ∧ s.mSizeHop = H ∧ s.mBuf.length = W ∧
  s.mTapW = ys.length % W ∧ s.mHopCnt = ys.length % H ∧
  mem.copyAllFromRing s.mBuf s.mTapW = lastN W (List.replicate W (0 : T) ++ ys)

/-- Concrete `DFTBase` state over `ℤ` with `numBins = 2` and a nonzero real
component in bin 0. -/
def dbC4 : DFTBase ℤ := ⟨2, [⟨5, 3⟩, ⟨2, 1⟩]⟩

/-- Concrete `DFTBase` state over `ℤ` with `numBins = 3`. -/
def dbC5 : DFTBase ℤ := ⟨4, [⟨1, 2⟩, ⟨3, 4⟩, ⟨5, 6⟩]⟩

/-- Concrete `DFT` read-side state: hop size 4, read tap 3. -/
def dftC9 : DFT ℤ := ⟨4, 3, [7, 8, 9, 10]⟩

/-- Concrete `SlidingWindow` state over `ℤ` after one feedCopy call on a
freshly constructed window of size 4 with hop 2. -/
def swC6a : SlidingWindow ℤ := ((SlidingWindow.new 4 2).feedCopy 5).1

/-- The state `swC6a` after a same-size `resize(4, 2)` call. -/
def swC6b : SlidingWindow ℤ := swC6a.resize 4 2 (List.replicate 4 0)

/-- Concrete `SlidingDFT` state with an empty configured interval
(`binLo = 5 > binHi = 3`). -/
def sdftC10 : SlidingDFT :=
  ⟨4, 5, 3, fun _ => ⟨0, 0⟩, [0, 0, 0, 0], ⟨1, 0⟩, ⟨1, 0⟩, 1⟩

/-- Concrete base `SlidingDFT` state with transform size 1. -/
def sdftC1base : SlidingDFT :=
  ⟨1, 0, 0, fun _ => ⟨0, 0⟩, [0], ⟨1, 0⟩, ⟨1, 0⟩, 2⟩

/-- The state `sdftC1base` configured through `interval(0, 1)`. -/
noncomputable def sdftC1 : SlidingDFT := sdftC1base.interval 0 1

/-! Theorems. -/

/-- Complex multiplication written out on components. -/
theorem Complex.mul_def {T : Type} [Mul T] [Add T] [Sub T] (a b : Complex T) :
    a * b = ⟨a.r * b.r - a.i * b.i, a.i * b.r + a.r * b.i⟩ := rfl

/-- Complex multiplication is associative over a commutative ring. -/
theorem Complex.mul_assoc' {T : Type} [CommRing T] (a b c : Complex T) :
    a * b * c = a * (b * c) := by
  cases a; cases b; cases c
  simp only [Complex.mul_def, Complex.mk.injEq]
  constructor <;> ring

/-- Complex multiplication is commutative over a commutative ring. -/
theorem Complex.mul_comm' {T : Type} [CommRing T] (a b : Complex T) :
    a * b = b * a := by
  cases a; cases b
  simp only [Complex.mul_def, Complex.mk.injEq]
  constructor <;> ring

/-- The complex unit is a right identity for complex multiplication. -/
theorem Complex.mul_unit {T : Type} [CommRing T] (a : Complex T) :
    a * (⟨1, 0⟩ : Complex T) = a := by
  cases a
  simp [Complex.mul_def]

/-- Evaluation of the successor case of `Complex.cpow`. -/
theorem Complex.cpow_succ {T : Type} [CommRing T] (z : Complex T) (n : ℕ) :
    Complex.cpow z (n + 1) = Complex.cpow z n * z := rfl

/-- C7: `SlidingWindow::sizeHop(size)` clamps the requested hop size into
`[1, windowSize]`: the stored hop size equals `min(max(size, 1), windowSize)`
for every requested size, lies in `[1, windowSize]`, and the call never
rejects or signals an error (it is a total state update). -/
theorem gamma_C7 {T : Type} (s : SlidingWindow T) (size : ℕ)
    (hW : 1 ≤ s.mSizeWin) :
    (s.sizeHopSet size).mSizeHop = min (max size 1) s.mSizeWin ∧
    1 ≤ (s.sizeHopSet size).mSizeHop ∧
    (s.sizeHopSet size).mSizeHop ≤ s.mSizeWin := by
  refine ⟨rfl, ?_, ?_⟩
  · simp only [SlidingWindow.sizeHopSet, scl.clip]
    omega
  · simp only [SlidingWindow.sizeHopSet, scl.clip]
    omega

/-- Witness for C7 at a concrete window of size 4 and requested hop size 0. -/
theorem gamma_C7_witness :
    1 ≤ (SlidingWindow.new (T := ℤ) 4 4).mSizeWin ∧
    (((SlidingWindow.new (T := ℤ) 4 4).sizeHopSet 0).mSizeHop =
        min (max 0 1) (SlidingWindow.new (T := ℤ) 4 4).mSizeWin ∧
      1 ≤ ((SlidingWindow.new (T := ℤ) 4 4).sizeHopSet 0).mSizeHop ∧
      ((SlidingWindow.new (T := ℤ) 4 4).sizeHopSet 0).mSizeHop ≤
        (SlidingWindow.new (T := ℤ) 4 4).mSizeWin) :=
  ⟨by decide, gamma_C7 (SlidingWindow.new 4 4) 0 (by decide)⟩

/-- C8: `DFTBase::numBins()` returns `(sizeDFT() + 2) / 2` in integer
division, equivalently `(sizeDFT() + 2) >> 1`, whenever the `uint32_t` sum
`sizeDFT() + 2` does not wrap. -/
theorem gamma_C8 {T : Type} (s : DFTBase T) (h : s.mSizeDFT + 2 < 2 ^ 32) :
    s.numBins = (s.mSizeDFT + 2) / 2 ∧ s.numBins = (s.mSizeDFT + 2) >>> 1 := by
  unfold DFTBase.numBins
  rw [Nat.mod_eq_of_lt h]
  exact ⟨by rw [Nat.shiftRight_eq_div_pow, pow_one], rfl⟩

/-- Witness for C8 at transform size 1024. -/
theorem gamma_C8_witness :
    (⟨1024, []⟩ : DFTBase ℤ).mSizeDFT + 2 < 2 ^ 32 ∧
    ((⟨1024, []⟩ : DFTBase ℤ).numBins = ((⟨1024, []⟩ : DFTBase ℤ).mSizeDFT + 2) / 2 ∧
      (⟨1024, []⟩ : DFTBase ℤ).numBins = ((⟨1024, []⟩ : DFTBase ℤ).mSizeDFT + 2) >>> 1) :=
  ⟨by norm_num, gamma_C8 ⟨1024, []⟩ (by norm_num)⟩

/-- C9: `DFT::inverseOnNext()` is true exactly when the read tap equals
`sizeHop() - 1`, which — under the reachable-state invariant `mTapR <
sizeHop()` — is exactly when the next inverse-sample read call performs the
inverse transform. -/
theorem gamma_C9 {T : Type} [Zero T] (inv : DFT T → List T) (s : DFT T)
    (h1 : 1 ≤ s.mSizeHop) (h2 : s.mSizeHop < 2 ^ 32) (h3 : s.mTapR < s.mSizeHop) :
    (s.inverseOnNext = true ↔ s.mTapR = s.mSizeHop - 1) ∧
    s.inverseOnNext = (DFT.readStep inv s).2.2 := by
  constructor
  · simp only [DFT.inverseOnNext, beq_iff_eq]
    omega
  · simp only [DFT.readStep]
    split
    · next hc =>
      show s.inverseOnNext = true
      simp only [DFT.inverseOnNext, beq_iff_eq]
      omega
    · next hc =>
      show s.inverseOnNext = false
      simp only [DFT.inverseOnNext]
      rw [beq_eq_false_iff_ne]
      omega

/-- Witness for C9 at hop size 4 and read tap 3 with a trivial inverse
oracle. -/
theorem gamma_C9_witness :
    (1 ≤ dftC9.mSizeHop ∧ dftC9.mSizeHop < 2 ^ 32 ∧ dftC9.mTapR < dftC9.mSizeHop) ∧
    ((dftC9.inverseOnNext = true ↔ dftC9.mTapR = dftC9.mSizeHop - 1) ∧
      dftC9.inverseOnNext = (DFT.readStep (fun _ => []) dftC9).2.2) :=
  ⟨⟨by decide, by norm_num [dftC9], by decide⟩,
    gamma_C9 (fun _ => []) dftC9 (by decide) (by norm_num [dftC9]) (by decide)⟩

/-- C4, counterexample to the claim as stated: `zeroEnds()` does not preserve
the real component of bin 0 — at a state whose bin 0 is `5 + 3i`, the real
component after the call is `0`, not `5`. -/
theorem gamma_C4_cex :
    ((dbC4.zeroEnds).mBins.getD 0 ⟨9, 9⟩).r ≠ (dbC4.mBins.getD 0 ⟨9, 9⟩).r := by
  decide

/-- C4, amended: after `DFTBase::zeroEnds()`, bin 0 and bin `numBins()-1`
have zero imaginary component; their real components are set to zero as well
rather than preserved. -/
theorem gamma_C4 {T : Type} [Zero T] (s : DFTBase T)
    (hlen : s.mBins.length = s.numBins) (h0 : 0 < s.numBins) :
    (∀ z, (s.zeroEnds).mBins[0]? = some z → z.i = 0 ∧ z.r = 0) ∧
    (∀ z, (s.zeroEnds).mBins[s.numBins - 1]? = some z → z.i = 0 ∧ z.r = 0) := by
  have hb0 : (s.zeroEnds).mBins[0]? = some ⟨0, 0⟩ := by
    simp only [DFTBase.zeroEnds, List.getElem?_set, List.length_set, hlen]
    split_ifs <;> simp_all
  have hbL : (s.zeroEnds).mBins[s.numBins - 1]? = some ⟨0, 0⟩ := by
    simp only [DFTBase.zeroEnds, List.getElem?_set, List.length_set, hlen]
    split_ifs <;> simp_all
  constructor
  · intro z hz; rw [hb0] at hz; cases hz; exact ⟨rfl, rfl⟩
  · intro z hz; rw [hbL] at hz; cases hz; exact ⟨rfl, rfl⟩

/-- Witness for the amended C4 at the concrete state `dbC4`. -/
theorem gamma_C4_witness :
    (dbC4.mBins.length = dbC4.numBins ∧ 0 < dbC4.numBins) ∧
    ((∀ z, (dbC4.zeroEnds).mBins[0]? = some z → z.i = 0 ∧ z.r = 0) ∧
      (∀ z, (dbC4.zeroEnds).mBins[dbC4.numBins - 1]? = some z →
        z.i = 0 ∧ z.r = 0)) :=
  ⟨⟨by decide, by decide⟩, gamma_C4 dbC4 (by decide) (by decide)⟩

/-- C5: after `DFTBase::zeroEnds()`, bin 0 and bin `numBins()-1` both equal
`(0,0)`, and every bin strictly between them is unchanged. -/
theorem gamma_C5 {T : Type} [Zero T] (s : DFTBase T)
    (hlen : s.mBins.length = s.numBins) (h0 : 0 < s.numBins) :
    (s.zeroEnds).mBins[0]? = some ⟨0, 0⟩ ∧
    (s.zeroEnds).mBins[s.numBins - 1]? = some ⟨0, 0⟩ ∧
    ∀ k, 0 < k → k + 1 < s.numBins → (s.zeroEnds).mBins[k]? = s.mBins[k]? := by
  refine ⟨?_, ?_, ?_⟩
  · simp only [DFTBase.zeroEnds, List.getElem?_set, List.length_set, hlen]
    split_ifs <;> simp_all
  · simp only [DFTBase.zeroEnds, List.getElem?_set, List.length_set, hlen]
    split_ifs <;> simp_all
  · intro k hk1 hk2
    simp only [DFTBase.zeroEnds]
    rw [List.getElem?_set_ne (by omega), List.getElem?_set_ne (by omega)]

/-- Witness for C5 at the concrete state `dbC5` (three bins), checking the
middle bin stays put. -/
theorem gamma_C5_witness :
    (dbC5.mBins.length = dbC5.numBins ∧ 0 < dbC5.numBins) ∧
    ((dbC5.zeroEnds).mBins[0]? = some ⟨0, 0⟩ ∧
      (dbC5.zeroEnds).mBins[dbC5.numBins - 1]? = some ⟨0, 0⟩ ∧
      ∀ k, 0 < k → k + 1 < dbC5.numBins →
        (dbC5.zeroEnds).mBins[k]? = dbC5.mBins[k]?) :=
  ⟨⟨by decide, by decide⟩, gamma_C5 dbC5 (by decide) (by decide)⟩

/-- C6, counterexample to the claim as stated: `SlidingWindow::resize` does
not zero the sample buffer and does not reset the hop counter.  After one
feedCopy call of the sample 5 on a fresh window of size 4 with hop 2, a
`resize(4, 2)` call leaves the buffer at `[5,0,0,0]` and the hop counter at
1. -/
theorem gamma_C6_cex :
    swC6b.mHopCnt = 1 ∧ swC6b.mBuf = [5, 0, 0, 0] ∧
    ¬(swC6b.mHopCnt = 0 ∧ ∀ x ∈ swC6b.mBuf, x = 0) := by
  decide

/-- C6, amended: `SlidingWindow::resize` resets only the write tap to 0,
leaving the hop counter unchanged, and does not zero the buffer (a same-size
resize keeps the contents; zeroing happens in the constructor); while
`SlidingDFT::resize` does zero the bin buffer and reset the delay line to
zero. -/
theorem gamma_C6 :
    (∀ (T : Type) (s : SlidingWindow T) (w h : ℕ) (fresh : List T),
      (s.resize w h fresh).mTapW = 0 ∧
      (s.resize w h fresh).mHopCnt = s.mHopCnt ∧
      (w = s.mSizeWin → (s.resize w h fresh).mBuf = s.mBuf)) ∧
    (∀ (n lo hi : ℕ) (s : SlidingDFT),
      (s.resize n lo hi).mBins = (fun _ => ⟨0, 0⟩) ∧
      (s.resize n lo hi).mDelay = List.replicate n 0) := by
  constructor
  · intro T s w h fresh
    refine ⟨rfl, ?_, ?_⟩
    · simp only [SlidingWindow.resize, SlidingWindow.sizeHopSet,
        SlidingWindow.sizeWinSet, mem.resize]
      split <;> rfl
    · intro hw
      simp [SlidingWindow.resize, SlidingWindow.sizeHopSet,
        SlidingWindow.sizeWinSet, mem.resize, hw]
  · intro n lo hi s
    exact ⟨rfl, rfl⟩

/-- Witness for the amended C6: a same-size resize of the concrete state
`swC6a` keeps the buffer and the hop counter, and resets the write tap. -/
theorem gamma_C6_witness :
    swC6b.mBuf = swC6a.mBuf ∧ swC6b.mTapW = 0 ∧ swC6b.mHopCnt = swC6a.mHopCnt :=
  ⟨(gamma_C6.1 ℤ swC6a 4 2 (List.replicate 4 0)).2.2 (by decide),
    (gamma_C6.1 ℤ swC6a 4 2 (List.replicate 4 0)).1,
    (gamma_C6.1 ℤ swC6a 4 2 (List.replicate 4 0)).2.1⟩

/-- C10: when a `SlidingDFT` is configured with `binLo >= binHi`, every
`forward(input)` call leaves every bin unchanged (the loop runs zero
iterations) while the delay line still advances by the input sample; and
`interval(binLo, binHi)` stores the endpoints with no validation against each
other or against the bin count. -/
theorem gamma_C10 (s : SlidingDFT) (input : ℝ) (h : s.mBinHi ≤ s.mBinLo) :
    (s.forward input).mBins = s.mBins ∧
    (s.forward input).mDelay = (DelayN.feedRead input s.mDelay).2 ∧
    (∀ (lo hi : ℕ) (s' : SlidingDFT),
      (s'.interval lo hi).mBinLo = lo ∧ (s'.interval lo hi).mBinHi = hi) := by
  have h0 : s.mBinHi - s.mBinLo = 0 := Nat.sub_eq_zero_of_le h
  refine ⟨?_, rfl, fun lo hi s' => ⟨rfl, rfl⟩⟩
  simp [SlidingDFT.forward, h0, sdftLoop]

/-- Witness for C10 at the concrete state `sdftC10` (`binLo = 5 > binHi = 3`). -/
theorem gamma_C10_witness :
    sdftC10.mBinHi ≤ sdftC10.mBinLo ∧
    ((sdftC10.forward 1).mBins = sdftC10.mBins ∧
      (sdftC10.forward 1).mDelay = (DelayN.feedRead 1 sdftC10.mDelay).2 ∧
      (∀ (lo hi : ℕ) (s' : SlidingDFT),
        (s'.interval lo hi).mBinLo = lo ∧ (s'.interval lo hi).mBinHi = hi)) :=
  ⟨by decide, gamma_C10 sdftC10 1 (by decide)⟩

/-- Closed form of the per-bin loop of `SlidingDFT::forward`: after `cnt`
iterations starting at bin `k` with running phasor `c`, a bin `j` in
`[k, k+cnt)` holds `bins j * (c * f1^(j-k)) + dif` (the phasor advances by one
factor of `f1` per bin) and every other bin is untouched. -/
theorem sdftLoop_apply (f1 : Complex ℝ) (dif : ℝ) :
    ∀ (cnt k : ℕ) (c : Complex ℝ) (bins : ℕ → Complex ℝ) (j : ℕ),
      sdftLoop f1 dif k cnt c bins j =
        if k ≤ j ∧ j < k + cnt then
          ((bins j) * (c * Complex.cpow f1 (j - k))).addR dif
        else bins j := by
  intro cnt
  induction cnt with
  | zero =>
    intro k c bins j
    rw [sdftLoop, if_neg (by omega)]
  | succ n ih =>
    intro k c bins j
    rw [sdftLoop, ih]
    by_cases hj : j = k
    · subst hj
      rw [if_neg (by omega), if_pos (by omega), Function.update_same]
      have h0 : j - j = 0 := by omega
      rw [h0]
      show (bins j * c).addR dif = (bins j * (c * (⟨1, 0⟩ : Complex ℝ))).addR dif
      rw [Complex.mul_unit]
    · rw [Function.update_noteq hj]
      by_cases h2 : k + 1 ≤ j ∧ j < k + 1 + n
      · rw [if_pos h2, if_pos (by omega)]
        have h3 : j - k = (j - (k + 1)) + 1 := by omega
        rw [h3, Complex.cpow_succ]
        rw [Complex.mul_assoc' c f1 (Complex.cpow f1 (j - (k + 1)))]
        rw [Complex.mul_comm' f1 (Complex.cpow f1 (j - (k + 1)))]
      · rw [if_neg h2, if_neg (by omega)]

/-- C1: for every `SlidingDFT::forward(input)` call on a state configured by
`interval`/`resize` (so that `mF1 = fromPhase(2*pi/N)`, `mFL =
fromPhase((2*pi/N)*binLo)` and `mNorm = 2/N` with `N = sizeDFT()`), the
difference `(input - delayed) * (2/N)` is formed from the delay-line output of
`N` samples ago, every bin `k` in `[binLo, binHi)` is replaced by
`bin[k] * c_k + difference` with `c_binLo` the low-bin rotator
`e^{i 2 pi binLo / N}` and `c_{k+1} = c_k * e^{i 2 pi / N}`, and every bin
outside the interval is left unchanged. -/
theorem gamma_C1 (s : SlidingDFT) (input : ℝ)
    (hF1 : s.mF1 = Complex.fromPhase (2 * Real.pi / (s.mSizeDFT : ℝ)))
    (hFL : s.mFL = Complex.fromPhase ((2 * Real.pi / (s.mSizeDFT : ℝ)) * (s.mBinLo : ℝ)))
    (hN : s.mNorm = 2 / (s.mSizeDFT : ℝ)) :
    ∀ k : ℕ, (s.forward input).mBins k =
      if s.mBinLo ≤ k ∧ k < s.mBinHi then
        ((s.mBins k) *
          (Complex.fromPhase ((2 * Real.pi / (s.mSizeDFT : ℝ)) * (s.mBinLo : ℝ)) *
            Complex.cpow (Complex.fromPhase (2 * Real.pi / (s.mSizeDFT : ℝ)))
              (k - s.mBinLo))).addR
          ((input - (DelayN.feedRead input s.mDelay).1) * (2 / (s.mSizeDFT : ℝ)))
      else s.mBins k := by
  intro k
  show sdftLoop s.mF1 ((input - (DelayN.feedRead input s.mDelay).1) * s.mNorm)
      s.mBinLo (s.mBinHi - s.mBinLo) s.mFL s.mBins k = _
  rw [sdftLoop_apply]
  by_cases hk : s.mBinLo ≤ k ∧ k < s.mBinHi
  · rw [if_pos (by omega), if_pos hk, hF1, hFL, hN]
  · rw [if_neg (by omega), if_neg hk]

/-- Witness for C1: the configured state `sdftC1` (transform size 1, interval
`[0, 1)`), evaluated at bin 0 on the input sample 1. -/
theorem gamma_C1_witness :
    (sdftC1.mF1 = Complex.fromPhase (2 * Real.pi / (sdftC1.mSizeDFT : ℝ)) ∧
      sdftC1.mFL =
        Complex.fromPhase ((2 * Real.pi / (sdftC1.mSizeDFT : ℝ)) * (sdftC1.mBinLo : ℝ)) ∧
      sdftC1.mNorm = 2 / (sdftC1.mSizeDFT : ℝ)) ∧
    (sdftC1.forward 1).mBins 0 =
      if sdftC1.mBinLo ≤ 0 ∧ 0 < sdftC1.mBinHi then
        ((sdftC1.mBins 0) *
          (Complex.fromPhase ((2 * Real.pi / (sdftC1.mSizeDFT : ℝ)) * (sdftC1.mBinLo : ℝ)) *
            Complex.cpow (Complex.fromPhase (2 * Real.pi / (sdftC1.mSizeDFT : ℝ)))
              (0 - sdftC1.mBinLo))).addR
          ((1 - (DelayN.feedRead 1 sdftC1.mDelay).1) * (2 / (sdftC1.mSizeDFT : ℝ)))
      else sdftC1.mBins 0 :=
  ⟨⟨rfl, rfl, rfl⟩, gamma_C1 sdftC1 1 rfl rfl rfl 0⟩

/-- C2: a `SlidingWindow` feed call writes the input at the current write
position and advances; under the reachable-state invariant `mTapW <
sizeHop()`, the call returns true exactly when `hopSize` samples have been
written since the last hop, at which point the buffer is rotated left by
`hopSize` positions and the write position is reset to 0, and otherwise it
returns false leaving the tap advanced by one.  In particular, for
`windowSize = 4` and `hopSize = 4`, feeding 0,1,2,3 into a fresh window
returns true only on the 4th call with `window()` then `[0,1,2,3]`, and the
next 4 samples yield the next ready window `[4,5,6,7]` unaffected by the
first. -/
theorem gamma_C2 :
    (∀ (T : Type) (s : SlidingWindow T) (input : T), s.mTapW < s.mSizeHop →
      ((s.feed input).2 = true ↔ s.mTapW + 1 = s.mSizeHop) ∧
      ((s.feed input).2 = true →
        (s.feed input).1.mBuf = mem.rotateLeft s.mSizeHop (s.mBuf.set s.mTapW input) ∧
        (s.feed input).1.mTapW = 0) ∧
      ((s.feed input).2 = false →
        (s.feed input).1.mBuf = s.mBuf.set s.mTapW input ∧
        (s.feed input).1.mTapW = s.mTapW + 1)) ∧
    (((SlidingWindow.new (T := ℤ) 4 4).feedMany [0, 1, 2, 3]).2 =
        [false, false, false, true] ∧
      ((SlidingWindow.new (T := ℤ) 4 4).feedMany [0, 1, 2, 3]).1.window =
        [0, 1, 2, 3] ∧
      ((SlidingWindow.new (T := ℤ) 4 4).feedMany [0, 1, 2, 3, 4, 5, 6, 7]).2 =
        [false, false, false, true, false, false, false, true] ∧
      ((SlidingWindow.new (T := ℤ) 4 4).feedMany [0, 1, 2, 3, 4, 5, 6, 7]).1.window =
        [4, 5, 6, 7]) := by
  constructor
  · intro T s input hinv
    simp only [SlidingWindow.feed]
    split
    · next hc =>
      refine ⟨⟨fun _ => by omega, fun _ => rfl⟩, fun _ => ⟨rfl, rfl⟩, fun hfalse => ?_⟩
      exact absurd hfalse (by simp)
    · next hc =>
      refine ⟨⟨fun h => ?_, fun h => ?_⟩, fun htrue => ?_, fun _ => ⟨rfl, rfl⟩⟩
      · exact absurd h (by simp)
      · exact absurd h (by omega)
      · exact absurd htrue (by simp)
  · decide

/-- Witness for the general part of C2, applied to a fresh window of size 4
and hop 4 with input 9. -/
theorem gamma_C2_witness :
    (SlidingWindow.new (T := ℤ) 4 4).mTapW < (SlidingWindow.new (T := ℤ) 4 4).mSizeHop ∧
    ((((SlidingWindow.new (T := ℤ) 4 4).feed 9).2 = true ↔
        (SlidingWindow.new (T := ℤ) 4 4).mTapW + 1 =
          (SlidingWindow.new (T := ℤ) 4 4).mSizeHop) ∧
      (((SlidingWindow.new (T := ℤ) 4 4).feed 9).2 = true →
        ((SlidingWindow.new (T := ℤ) 4 4).feed 9).1.mBuf =
          mem.rotateLeft (SlidingWindow.new (T := ℤ) 4 4).mSizeHop
            ((SlidingWindow.new (T := ℤ) 4 4).mBuf.set
              (SlidingWindow.new (T := ℤ) 4 4).mTapW 9) ∧
        ((SlidingWindow.new (T := ℤ) 4 4).feed 9).1.mTapW = 0) ∧
      (((SlidingWindow.new (T := ℤ) 4 4).feed 9).2 = false →
        ((SlidingWindow.new (T := ℤ) 4 4).feed 9).1.mBuf =
          (SlidingWindow.new (T := ℤ) 4 4).mBuf.set
            (SlidingWindow.new (T := ℤ) 4 4).mTapW 9 ∧
        ((SlidingWindow.new (T := ℤ) 4 4).feed 9).1.mTapW =
          (SlidingWindow.new (T := ℤ) 4 4).mTapW + 1)) :=
  ⟨by decide, gamma_C2.1 ℤ (SlidingWindow.new 4 4) 9 (by decide)⟩

/-- Successor of a value modulo `m`, matching the wrap test the feedCopy
counters perform. -/
theorem mod_succ_eq (n m : ℕ) (h : 0 < m) :
    (n + 1) % m = if n % m + 1 = m then 0 else n % m + 1 := by
  rcases Nat.lt_or_ge 1 m with hm | hm
  · have h1 : 1 % m = 1 := Nat.mod_eq_of_lt hm
    have hlt : n % m < m := Nat.mod_lt n h
    rw [Nat.add_mod, h1]
    split
    · next hc => rw [hc, Nat.mod_self]
    · next hc => exact Nat.mod_eq_of_lt (by omega)
  · have hm1 : m = 1 := by omega
    subst hm1
    simp [Nat.mod_one]

/-- One modular ring write: setting the slot at the tap and advancing the tap
(with wraparound) shifts the logical (oldest-first) reading of the ring by
one and appends the new sample. -/
theorem ringStep {T : Type} (buf : List T) (t : ℕ) (x : T) (ht : t < buf.length) :
    mem.copyAllFromRing (buf.set t x) (if t + 1 = buf.length then 0 else t + 1) =
      (mem.copyAllFromRing buf t).drop 1 ++ [x] := by
  have hset : buf.set t x = buf.take t ++ x :: buf.drop (t + 1) := by
    rw [List.set_eq_take_append_cons_drop, if_pos ht]
  have hTlen : (buf.take t).length = t := by
    rw [List.length_take]; omega
  have hdrop1 : (buf.drop t ++ buf.take t).drop 1 =
      buf.drop (t + 1) ++ buf.take t := by
    rw [List.drop_append_of_le_length (by rw [List.length_drop]; omega),
      List.drop_drop]
  unfold mem.copyAllFromRing
  split
  · next hL =>
    have hd : buf.drop (t + 1) = [] := List.drop_of_length_le (by omega)
    simp only [List.drop_zero, List.take_zero, List.append_nil]
    rw [hset, hd, hdrop1, hd]
    simp
  · next hL =>
    have e1 : (buf.take t ++ x :: buf.drop (t + 1)).drop (t + 1) =
        buf.drop (t + 1) := by
      rw [show t + 1 = (buf.take t).length + 1 from by rw [hTlen]]
      rw [List.drop_append]
      simp
    have e2 : (buf.take t ++ x :: buf.drop (t + 1)).take (t + 1) =
        buf.take t ++ [x] := by
      rw [show t + 1 = (buf.take t).length + 1 from by rw [hTlen]]
      rw [List.take_append]
      simp
    rw [hset, e1, e2, hdrop1, List.append_assoc]

/-- Appending one sample to a stream shifts its window of the `W` most recent
samples by one. -/
theorem lastN_append_singleton {T : Type} (W : ℕ) (hW : 1 ≤ W) (L : List T)
    (hL : W ≤ L.length) (x : T) :
    lastN W (L ++ [x]) = (lastN W L).drop 1 ++ [x] := by
  unfold lastN
  have hlen : (L ++ [x]).length = L.length + 1 := by simp
  rw [hlen, List.drop_drop]
  have h1 : L.length + 1 - W = L.length - W + 1 := by omega
  rw [h1, List.drop_append_of_le_length (by omega)]

/-- A freshly constructed `SlidingWindow` satisfies the feedCopy invariant for
the empty stream. -/
theorem SWInv_new (T : Type) [Zero T] (W H : ℕ) (hW : 1 ≤ W) (hH : 1 ≤ H)
    (hHW : H ≤ W) : SWInv T W H [] (SlidingWindow.new W H) := by
  have hW0 : ¬(W = 0) := by omega
  refine ⟨?_, ?_, ?_, ?_, ?_, ?_⟩
  · simp [SlidingWindow.new, SlidingWindow.resize, SlidingWindow.sizeWinSet,
      SlidingWindow.sizeHopSet, mem.resize, hW0]
  · simp [SlidingWindow.new, SlidingWindow.resize, SlidingWindow.sizeWinSet,
      SlidingWindow.sizeHopSet, mem.resize, scl.clip, hW0]
    omega
  · simp [SlidingWindow.new, SlidingWindow.resize, SlidingWindow.sizeWinSet,
      SlidingWindow.sizeHopSet, mem.resize, hW0]
  · simp [SlidingWindow.new, SlidingWindow.resize, SlidingWindow.sizeWinSet,
      SlidingWindow.sizeHopSet, mem.resize, hW0]
  · simp [SlidingWindow.new, SlidingWindow.resize, SlidingWindow.sizeWinSet,
      SlidingWindow.sizeHopSet, mem.resize, hW0]
  · simp [SlidingWindow.new, SlidingWindow.resize, SlidingWindow.sizeWinSet,
      SlidingWindow.sizeHopSet, mem.resize, hW0, mem.copyAllFromRing, lastN]

/-- One feedCopy call preserves the ring invariant, extends the recorded
stream by the new sample, reports readiness exactly at hop boundaries of the
stream position, and emits the logically ordered window exactly then. -/
theorem feedCopy_step {T : Type} [Zero T] (W H : ℕ) (hW : 1 ≤ W) (hH : 1 ≤ H)
    (ys : List T) (s : SlidingWindow T) (x : T) (hinv : SWInv T W H ys s) :
    SWInv T W H (ys ++ [x]) (s.feedCopy x).1 ∧
    (s.feedCopy x).2.1 = decide ((ys.length + 1) % H = 0) ∧
    (s.feedCopy x).2.2 =
      (if (ys.length + 1) % H = 0
        then some (lastN W (List.replicate W (0 : T) ++ (ys ++ [x]))) else none) := by
  obtain ⟨h1, h2, h3, h4, h5, h6⟩ := hinv
  have htap : s.mTapW < W := by rw [h4]; exact Nat.mod_lt _ (by omega)
  have hmodW : (ys.length + 1) % W =
      if ys.length % W + 1 = W then 0 else ys.length % W + 1 :=
    mod_succ_eq _ _ (by omega)
  have hmodH : (ys.length + 1) % H =
      if ys.length % H + 1 = H then 0 else ys.length % H + 1 :=
    mod_succ_eq _ _ (by omega)
  have hlen1 : (ys ++ [x]).length = ys.length + 1 := by simp
  have hring : mem.copyAllFromRing (s.mBuf.set s.mTapW x)
      (if s.mTapW + 1 = W then 0 else s.mTapW + 1) =
      lastN W (List.replicate W (0 : T) ++ (ys ++ [x])) := by
    have hrs := ringStep s.mBuf s.mTapW x (by omega)
    rw [h3] at hrs
    rw [hrs, h6, ← List.append_assoc]
    exact (lastN_append_singleton W hW _ (by simp) x).symm
  have htap' : (if s.mTapW + 1 = W then 0 else s.mTapW + 1) =
      (ys ++ [x]).length % W := by
    rw [hlen1, hmodW, h4]
  simp only [SlidingWindow.feedCopy, h1, h2]
  split
  · next hc =>
    rw [h5] at hc
    have hz : (ys.length + 1) % H = 0 := by rw [hmodH, if_pos hc]
    dsimp only
    refine ⟨⟨rfl, rfl, ?_, ?_, ?_, ?_⟩, ?_, ?_⟩
    · rw [List.length_set]; exact h3
    · exact htap'
    · rw [hlen1, hz]
    · exact hring
    · simp [hz]
    · rw [hz, hring]; simp
  · next hc =>
    rw [h5] at hc
    have hz : (ys.length + 1) % H = ys.length % H + 1 := by
      rw [hmodH, if_neg hc]
    dsimp only
    refine ⟨⟨rfl, rfl, ?_, ?_, ?_, ?_⟩, ?_, ?_⟩
    · rw [List.length_set]; exact h3
    · exact htap'
    · rw [hlen1, hz, h5]
    · exact hring
    · simp [hz]
    · rw [if_neg (by omega)]

/-- Running feedCopy over a whole stream from any state satisfying the ring
invariant: the invariant is maintained for the extended stream, and the
output at each position reports readiness exactly at hop boundaries, with the
logically ordered window of the `W` most recent samples exactly then. -/
theorem runFeedCopy_spec {T : Type} [Zero T] (W H : ℕ) (hW : 1 ≤ W) (hH : 1 ≤ H) :
    ∀ (xs ys : List T) (s : SlidingWindow T), SWInv T W H ys s →
      SWInv T W H (ys ++ xs) (s.runFeedCopy xs).1 ∧
      ∀ i, i < xs.length →
        (s.runFeedCopy xs).2[i]? =
          some
            (decide ((ys.length + i + 1) % H = 0),
              if (ys.length + i + 1) % H = 0 then
                some (lastN W (List.replicate W (0 : T) ++ (ys ++ xs.take (i + 1))))
              else none) := by
  intro xs
  induction xs with
  | nil =>
    intro ys s hinv
    constructor
    · simpa using hinv
    · intro i hi
      simp at hi
  | cons x xs ih =>
    intro ys s hinv
    obtain ⟨hstep, hflag, hout⟩ := feedCopy_step W H hW hH ys s x hinv
    obtain ⟨hinv', hidx⟩ := ih (ys ++ [x]) (s.feedCopy x).1 hstep
    have hpair : (s.feedCopy x).2 =
        (decide ((ys.length + 1) % H = 0),
          if (ys.length + 1) % H = 0
            then some (lastN W (List.replicate W (0 : T) ++ (ys ++ [x]))) else none) :=
      Prod.ext hflag hout
    constructor
    · simp only [SlidingWindow.runFeedCopy]
      have hl : ys ++ x :: xs = (ys ++ [x]) ++ xs := by simp
      rw [hl]
      exact hinv'
    · intro i hi
      simp only [SlidingWindow.runFeedCopy]
      cases i with
      | zero =>
        simp only [List.getElem?_cons_zero, Option.some.injEq]
        rw [hpair]
        simp
      | succ i =>
        simp only [List.getElem?_cons_succ]
        have hstepidx := hidx i (by simp only [List.length_cons] at hi; omega)
        have harith : (ys ++ [x]).length + i + 1 = ys.length + (i + 1) + 1 := by
          simp only [List.length_append, List.length_singleton]
          omega
        have hlist : (ys ++ [x]) ++ xs.take (i + 1) = ys ++ (x :: xs).take (i + 1 + 1) := by
          rw [List.take_succ_cons, List.append_assoc, List.singleton_append]
        rw [hstepidx, harith, hlist]

/-- C3: feedCopy writes samples at modularly advancing ring positions without
physically rotating the buffer: from a fresh window, the call on the n-th
sample returns true exactly when `n` is a multiple of `hopSize` (that is,
`hopSize` samples have been fed since the last hop boundary), copies the
`windowSize` most recent samples of the zero-initialized stream in logical
(oldest-first) order into the destination exactly then, and otherwise returns
false without writing the destination; the write tap advances modulo the
window size. -/
theorem gamma_C3 {T : Type} [Zero T] (W H : ℕ) (hW : 1 ≤ W) (hH : 1 ≤ H)
    (hHW : H ≤ W) (xs : List T) :
    (∀ i, i < xs.length →
      ((SlidingWindow.new (T := T) W H).runFeedCopy xs).2[i]? =
        some
          (decide ((i + 1) % H = 0),
            if (i + 1) % H = 0
              then some (lastN W (List.replicate W (0 : T) ++ xs.take (i + 1)))
              else none)) ∧
    ((SlidingWindow.new (T := T) W H).runFeedCopy xs).1.mTapW = xs.length % W ∧
    ((SlidingWindow.new (T := T) W H).runFeedCopy xs).1.mHopCnt = xs.length % H := by
  obtain ⟨hinv', hidx⟩ := runFeedCopy_spec W H hW hH xs [] (SlidingWindow.new W H)
    (SWInv_new T W H hW hH hHW)
  refine ⟨?_, ?_, ?_⟩
  · intro i hi
    have h := hidx i hi
    simpa using h
  · have h := hinv'.2.2.2.1
    simpa using h
  · have h := hinv'.2.2.2.2.1
    simpa using h

/-- Witness for C3: window size 2, hop size 1, stream `[5, 7]`, checked at the
first call. -/
theorem gamma_C3_witness :
    ((1 : ℕ) ≤ 2 ∧ (1 : ℕ) ≤ 1 ∧ (1 : ℕ) ≤ 2) ∧
    ((SlidingWindow.new (T := ℤ) 2 1).runFeedCopy [5, 7]).2[0]? =
      some
        (decide ((0 + 1) % 1 = 0),
          if (0 + 1) % 1 = 0
            then some (lastN 2 (List.replicate 2 (0 : ℤ) ++ [5, 7].take (0 + 1)))
            else none) ∧
    ((SlidingWindow.new (T := ℤ) 2 1).runFeedCopy [5, 7]).1.mTapW = [5, 7].length % 2 :=
  ⟨⟨by decide, by decide, by decide⟩,
    (gamma_C3 2 1 (by decide) (by decide) (by decide) [5, 7]).1 0 (by decide),
    (gamma_C3 2 1 (by decide) (by decide) (by decide) [5, 7]).2.1⟩

end Gam
